import Mathlib

/-!
Verification development for the continuous-filter convolution layer
(`CFConv`, `GNN/GNN_symmetric/pack/nn/cfconv.py`).

Tensors are embedded as nested lists of rationals, batch axis outermost:
a rank-3 tensor of shape `(batch, n_atoms, n_feat)` is a
`List (List (List ℚ))`.  Python slicing `t[:, :cut]` clamps to the
available extent, exactly as `List.take` does.  The two helper modules
`Dense` and `Aggregate` are imported from `pack.nn` and their code is not
part of this repository's sources; they are modelled from the spec where
indicated.
-/

namespace GNN

/-- A feature vector (innermost tensor axis). -/
abbrev Vec := List ℚ

/-- A rank-2 tensor (matrix), e.g. a linear layer's weight. -/
abbrev T2 := List Vec

/-- A rank-3 tensor, shape (batch, atoms, features) or (batch, atoms, neighbors). -/
abbrev T3 := List T2

/-- A rank-4 tensor, shape (batch, atoms, neighbors, features). -/
abbrev T4 := List T3

/-- A rank-3 integer tensor of neighbor indices, shape (batch, atoms, neighbors). -/
abbrev NT3 := List (List (List ℕ))

/-- Dot product of two feature vectors. -/
def dot (u v : Vec) : ℚ := (List.zipWith (fun a b => a * b) u v).sum

/-- Modelled from the spec: `Dense(n_in, n_filters, bias=False)` from `pack.nn`
(not under src/) — a linear map with no bias term and no activation
(spec 4.1).  Row `i` of `W` holds the weights of output feature `i`. -/
def linearNoBias (W : T2) (v : Vec) : Vec := W.map (fun row => dot row v)

/-- Modelled from the spec: `Dense(n_filters, n_out, activation=activation)`
from `pack.nn` (not under src/) — a linear map with bias followed by an
optional activation (spec 4.7); `act` is the identity when no activation
is configured. -/
def denseLayer (W : T2) (b : Vec) (act : ℚ → ℚ) (v : Vec) : Vec :=
  List.zipWith (fun row bi => act (dot row v + bi)) W b

/-- Apply a per-feature-vector map across the batch and atom axes. -/
def map3 (f : Vec → Vec) (t : T3) : T3 := t.map (fun mb => mb.map f)

/-- Python slicing `t[:, :m]` along the atom axis; like Python, `take`
clamps when `m` exceeds the available extent. -/
def sliceAtoms (m : ℕ) (t : List (List α)) : List (List α) :=
  t.map (fun r => r.take m)

/-- `r_ij.unsqueeze(-1)`: add a trailing singleton feature axis. -/
def unsqueezeLast (t : T3) : T4 :=
  t.map (fun mb => mb.map (fun r => r.map (fun q => [q])))

/-- Elementwise product of two rank-4 tensors (torch `*` on equal shapes). -/
def mul4 (a b : T4) : T4 :=
  List.zipWith (List.zipWith (List.zipWith (List.zipWith (fun p q => p * q)))) a b

/-- `W * cutoff.unsqueeze(-1)` (cfconv.py line 62): each per-pair filter
vector is scaled by the pair's cutoff scalar, broadcast over the
filter-feature axis. -/
def scaleByCutoff (W : T4) (cmat : T3) : T4 :=
  List.zipWith (fun wb cb =>
    List.zipWith (fun wa ca =>
      List.zipWith (fun wrow cs => wrow.map (fun q => q * cs)) wa ca) wb cb) W cmat

/-- The gather composite of cfconv.py lines 67-72: the neighbor-index
tensor is flattened to shape (batch, cut*n_neighbors, 1), expanded over
the filter axis, used in `torch.gather(y, 1, nbh)`, and the result is
reshaped back to (batch, cut, n_neighbors, n_filters).  Net semantics:
`result[b][i][k][f] = y[b][nbh[b][i][k]][f]`, embedded here as a direct
per-index lookup (out-of-range indices, an error in torch, default to an
empty row). -/
def gatherNbh (y : T3) (nbh : NT3) : T4 :=
  List.zipWith (fun nb yb => nb.map (fun row => row.map (fun j => yb.getD j []))) nbh y

/-- Componentwise sum of two feature vectors. -/
def vadd (u v : Vec) : Vec := List.zipWith (fun a b => a + b) u v

/-- Componentwise sum of a list of feature vectors (torch.sum over the
neighbor axis). -/
def vsum : List Vec → Vec
  | [] => []
  | [v] => v
  | v :: w :: vs => vadd v (vsum (w :: vs))

/-- Modelled from the spec: the masked sum at one atom — each neighbor's
contribution is multiplied by that neighbor's mask value, then summed
over the neighbor axis (spec 4.6). -/
def maskedSum (inp : List Vec) (mask : Vec) : Vec :=
  vsum (List.zipWith (fun ms v => v.map (fun q => ms * q)) mask inp)

/-- Modelled from the spec: the per-atom core of `Aggregate` from
`pack.nn.base` (not under src/), spec 4.6 — the masked sum over the
neighbor axis; in mean mode it is divided by the mask total with a
numerical floor of 1, so an atom without valid neighbors yields zero
rather than a division by zero. -/
def aggRow (mean : Bool) (inp : List Vec) (mask : Vec) : Vec :=
  if mean then (maskedSum inp mask).map (fun q => q / max mask.sum 1)
  else maskedSum inp mask

/-- Modelled from the spec: `Aggregate(axis=2, mean=normalize_filter)` from
`pack.nn.base` (not under src/), spec 4.6, at the default neighbor axis:
masked reduction over axis 2 applied per batch and per atom. -/
def aggregate (mean : Bool) (inp : T4) (mask : T3) : T3 :=
  List.zipWith (fun ib mb =>
    List.zipWith (fun ia ma => aggRow mean ia ma) ib mb) inp mask

/-- The construction-time state of a `CFConv` layer (cfconv.py lines
27-34): the two `Dense` sub-layers' weights, the externally supplied
filter and optional cutoff networks, and the aggregation mode.
`activation` is the identity function when no activation is configured. -/
structure CFConv where
  in2fW : T2
  f2outW : T2
  f2outB : Vec
  activation : ℚ → ℚ
  filter_network : T4 → T4
  cutoff_network : Option (T3 → T3)
  normalize_filter : Bool

/-- `y = self.in2f(x)` (cfconv.py line 65): bias-free input projection of
every atom of every batch, applied before any truncation. -/
def CFConv.projectIn (c : CFConv) (x : T3) : T3 := map3 (linearNoBias c.in2fW) x

/-- Lines 67-72 of cfconv.py: gather the projected features of the
neighbors listed in `neighbors[:, :cut]`. -/
def CFConv.gatherStage (c : CFConv) (x : T3) (neighbors : NT3) (cut : ℕ) : T4 :=
  gatherNbh (c.projectIn x) (sliceAtoms cut neighbors)

/-- Lines 58-62 of cfconv.py: `W = filter_network(f_ij[:, :cut])`, then,
when a cutoff network is configured,
`W = W * cutoff_network(r_ij[:, :cut]).unsqueeze(-1)`. -/
def CFConv.filterW (c : CFConv) (r_ij : T3) (fij : T4) (cut : ℕ) : T4 :=
  let W := c.filter_network (sliceAtoms cut fij)
  match c.cutoff_network with
  | some cn => scaleByCutoff W (cn (sliceAtoms cut r_ij))
  | none => W

/-- The body of `CFConv.forward` after `cut` and `f_ij` defaults are
resolved (cfconv.py lines 58-79): filter computation, input projection
and gather, `y = y[:, :cut] * W[:, :cut]`, masked aggregation
`y = self.agg(y, pairwise_mask[:, :cut])`, and the output projection
`y = self.f2out(y)`. -/
def CFConv.forwardCut (c : CFConv) (x r_ij : T3) (neighbors : NT3)
    (pairwise_mask : T3) (fij : T4) (cutv : ℕ) : T3 :=
  map3 (denseLayer c.f2outW c.f2outB c.activation)
    (aggregate c.normalize_filter
      (mul4 (sliceAtoms cutv (c.gatherStage x neighbors cutv))
            (sliceAtoms cutv (c.filterW r_ij fij cutv)))
      (sliceAtoms cutv pairwise_mask))

/-- `CFConv.forward` (cfconv.py lines 36-79).  `cut = None` defaults to
`x.shape[1]` (line 52); `f_ij = None` defaults to `r_ij.unsqueeze(-1)`
(line 55). -/
def CFConv.forward (c : CFConv) (x r_ij : T3) (neighbors : NT3)
    (pairwise_mask : T3) (f_ij : Option T4) (cut : Option ℕ) : T3 :=
  c.forwardCut x r_ij neighbors pairwise_mask
    (f_ij.getD (unsqueezeLast r_ij))
    (cut.getD (x.headD []).length)

/-- Shape predicate for a rank-2 nested list: `a` outer entries, each of
length `b`. -/
def Shape2 (t : List (List α)) (a b : ℕ) : Prop :=
  t.length = a ∧ ∀ r ∈ t, r.length = b

/-- Shape predicate for a rank-3 nested list. -/
def Shape3 (t : List (List (List α))) (a b c : ℕ) : Prop :=
  t.length = a ∧ ∀ m ∈ t, m.length = b ∧ ∀ r ∈ m, r.length = c

/-- Shape predicate for a rank-4 nested list. -/
def Shape4 (t : List (List (List (List α)))) (a b c d : ℕ) : Prop :=
  t.length = a ∧ ∀ u ∈ t, u.length = b ∧ ∀ m ∈ u, m.length = c ∧ ∀ r ∈ m, r.length = d

instance instDecShape2 (t : List (List α)) (a b : ℕ) : Decidable (Shape2 t a b) :=
  decidable_of_iff (t.length = a ∧ ∀ r ∈ t, r.length = b) Iff.rfl

instance instDecShape3 (t : List (List (List α))) (a b c : ℕ) : Decidable (Shape3 t a b c) :=
  decidable_of_iff (t.length = a ∧ ∀ m ∈ t, m.length = b ∧ ∀ r ∈ m, r.length = c) Iff.rfl

instance instDecShape4 (t : List (List (List (List α)))) (a b c d : ℕ) :
    Decidable (Shape4 t a b c d) :=
  decidable_of_iff
    (t.length = a ∧ ∀ u ∈ t, u.length = b ∧ ∀ m ∈ u, m.length = c ∧ ∀ r ∈ m, r.length = d)
    Iff.rfl

/-- A tensor of ones of the same shape as `t` (a constant-1.0 cutoff
network's output). -/
def onesLike3 (t : T3) : T3 := t.map (fun mb => mb.map (fun r => r.map (fun _ => (1 : ℚ))))

/-! ### Basic list helper lemmas -/

theorem length_sliceAtoms (m : ℕ) (t : List (List α)) :
    (sliceAtoms m t).length = t.length := List.length_map _ _

theorem sliceAtoms_eq_self {m : ℕ} {t : List (List α)}
    (h : ∀ r ∈ t, r.length ≤ m) : sliceAtoms m t = t := by
  induction t with
  | nil => rfl
  | cons r rs ih =>
    have h1 : r.length ≤ m := h r (List.mem_cons_self r rs)
    simp only [sliceAtoms, List.map_cons] at *
    rw [List.take_of_length_le h1]
    have h2 := ih (fun u hu => h u (List.mem_cons_of_mem r hu))
    rw [h2]

theorem forall_mem_zipWith {f : α → β → γ} {P : γ → Prop}
    {a : List α} {b : List β} (h : ∀ u ∈ a, ∀ v ∈ b, P (f u v)) :
    ∀ r ∈ List.zipWith f a b, P r := by
  induction a generalizing b with
  | nil => simp
  | cons u us ih =>
    cases b with
    | nil => simp
    | cons v vs =>
      intro r hr
      simp only [List.zipWith_cons_cons] at hr
      rcases List.mem_cons.mp hr with h1 | h2
      · exact h1 ▸ h u (List.mem_cons_self u us) v (List.mem_cons_self v vs)
      · exact ih (fun p hp q hq =>
          h p (List.mem_cons_of_mem u hp) q (List.mem_cons_of_mem v hq)) r h2

theorem getD_zipWith {f : α → β → γ} {a : List α} {b : List β} {i : ℕ}
    (d₁ : α) (d₂ : β) (d₃ : γ) (ha : i < a.length) (hb : i < b.length) :
    (List.zipWith f a b).getD i d₃ = f (a.getD i d₁) (b.getD i d₂) := by
  rw [List.getD_eq_getElem _ _ (by rw [List.length_zipWith]; omega),
      List.getD_eq_getElem _ _ ha, List.getD_eq_getElem _ _ hb]
  exact List.getElem_zipWith

theorem getD_map {f : α → β} {l : List α} {i : ℕ} (d : α) (e : β)
    (h : i < l.length) : (l.map f).getD i e = f (l.getD i d) := by
  rw [List.getD_eq_getElem _ _ (by rw [List.length_map]; exact h),
      List.getD_eq_getElem _ _ h]
  exact List.getElem_map f

theorem getD_take {l : List α} {m i : ℕ} (d : α) (h1 : i < m) (h2 : i < l.length) :
    (l.take m).getD i d = l.getD i d := by
  rw [List.getD_eq_getElem _ _ (by rw [List.length_take]; omega),
      List.getD_eq_getElem _ _ h2]
  exact List.getElem_take l

theorem zipWith_left_id {f : α → β → α} {a : List α} {b : List β}
    (hlen : a.length ≤ b.length) (h : ∀ u ∈ a, ∀ v ∈ b, f u v = u) :
    List.zipWith f a b = a := by
  induction a generalizing b with
  | nil => simp
  | cons u us ih =>
    cases b with
    | nil => simp at hlen
    | cons v vs =>
      simp only [List.zipWith_cons_cons]
      rw [h u (List.mem_cons_self u us) v (List.mem_cons_self v vs)]
      rw [ih (by simpa using hlen) (fun p hp q hq =>
        h p (List.mem_cons_of_mem u hp) q (List.mem_cons_of_mem v hq))]

/-! ### Shape projection and preservation lemmas -/

theorem shape4_to_shape2 {t : List (List (List (List α)))} {a b c d : ℕ}
    (h : Shape4 t a b c d) : Shape2 t a b :=
  ⟨h.1, fun r hr => (h.2 r hr).1⟩

theorem shape3_to_shape2 {t : List (List (List α))} {a b c : ℕ}
    (h : Shape3 t a b c) : Shape2 t a b :=
  ⟨h.1, fun r hr => (h.2 r hr).1⟩

theorem shape2_sliceAtoms {t : List (List α)} {a b : ℕ} (m : ℕ)
    (h : Shape2 t a b) : Shape2 (sliceAtoms m t) a (min m b) := by
  refine ⟨by rw [length_sliceAtoms, h.1], ?_⟩
  intro r hr
  rcases List.mem_map.mp hr with ⟨u, hu, rfl⟩
  rw [List.length_take, (h.2 u hu)]

theorem shape3_sliceAtoms {t : List (List (List α))} {a b c : ℕ} (m : ℕ)
    (h : Shape3 t a b c) : Shape3 (sliceAtoms m t) a (min m b) c := by
  refine ⟨by rw [length_sliceAtoms, h.1], ?_⟩
  intro r hr
  rcases List.mem_map.mp hr with ⟨u, hu, rfl⟩
  refine ⟨by rw [List.length_take, (h.2 u hu).1], ?_⟩
  intro q hq
  exact (h.2 u hu).2 q (List.mem_of_mem_take hq)

theorem shape4_sliceAtoms {t : List (List (List (List α)))} {a b c d : ℕ} (m : ℕ)
    (h : Shape4 t a b c d) : Shape4 (sliceAtoms m t) a (min m b) c d := by
  refine ⟨by rw [length_sliceAtoms, h.1], ?_⟩
  intro r hr
  rcases List.mem_map.mp hr with ⟨u, hu, rfl⟩
  refine ⟨by rw [List.length_take, (h.2 u hu).1], ?_⟩
  intro q hq
  exact (h.2 u hu).2 q (List.mem_of_mem_take hq)

theorem shape4_unsqueezeLast {t : T3} {a b c : ℕ} (h : Shape3 t a b c) :
    Shape4 (unsqueezeLast t) a b c 1 := by
  refine ⟨by rw [unsqueezeLast, List.length_map, h.1], ?_⟩
  intro u hu
  rcases List.mem_map.mp hu with ⟨mb, hmb, rfl⟩
  refine ⟨by rw [List.length_map, (h.2 mb hmb).1], ?_⟩
  intro mm hmm
  rcases List.mem_map.mp hmm with ⟨r, hr, rfl⟩
  refine ⟨by rw [List.length_map, (h.2 mb hmb).2 r hr], ?_⟩
  intro q hq
  rcases List.mem_map.mp hq with ⟨z, _, rfl⟩
  rfl

/-! ### Shape behaviour of each forward-pass stage -/

theorem shape3_projectIn (c : CFConv) {x : T3} {B A : ℕ} (h : Shape2 x B A) :
    Shape3 (c.projectIn x) B A c.in2fW.length := by
  refine ⟨by simp [CFConv.projectIn, map3, h.1], ?_⟩
  intro mb hmb
  simp only [CFConv.projectIn, map3] at hmb
  rcases List.mem_map.mp hmb with ⟨u, hu, rfl⟩
  refine ⟨by rw [List.length_map, h.2 u hu], ?_⟩
  intro r hr
  rcases List.mem_map.mp hr with ⟨v, _, rfl⟩
  simp [linearNoBias]

theorem shape2_gatherNbh {y : T3} {nbh : NT3} {B A : ℕ}
    (hy : y.length = B) (hn : Shape2 nbh B A) :
    Shape2 (gatherNbh y nbh) B A := by
  refine ⟨by rw [gatherNbh, List.length_zipWith, hy, hn.1, Nat.min_self], ?_⟩
  apply forall_mem_zipWith
  intro nb hnb yb _
  rw [List.length_map, hn.2 nb hnb]

theorem shape2_mul4 {a b : T4} {B m : ℕ} (ha : Shape2 a B m) (hb : Shape2 b B m) :
    Shape2 (mul4 a b) B m := by
  refine ⟨by rw [mul4, List.length_zipWith, ha.1, hb.1, Nat.min_self], ?_⟩
  apply forall_mem_zipWith
  intro u hu v hv
  rw [List.length_zipWith, ha.2 u hu, hb.2 v hv, Nat.min_self]

theorem shape2_scaleByCutoff {W : T4} {cmat : T3} {B m : ℕ}
    (ha : Shape2 W B m) (hb : Shape2 cmat B m) :
    Shape2 (scaleByCutoff W cmat) B m := by
  refine ⟨by rw [scaleByCutoff, List.length_zipWith, ha.1, hb.1, Nat.min_self], ?_⟩
  apply forall_mem_zipWith
  intro u hu v hv
  rw [List.length_zipWith, ha.2 u hu, hb.2 v hv, Nat.min_self]

theorem shape2_aggregate {mean : Bool} {inp : T4} {mask : T3} {B m : ℕ}
    (hi : Shape2 inp B m) (hm : Shape2 mask B m) :
    Shape2 (aggregate mean inp mask) B m := by
  refine ⟨by rw [aggregate, List.length_zipWith, hi.1, hm.1, Nat.min_self], ?_⟩
  apply forall_mem_zipWith
  intro u hu v hv
  rw [List.length_zipWith, hi.2 u hu, hm.2 v hv, Nat.min_self]

theorem shape3_outProj (c : CFConv) {t : T3} {B m nOut nFil : ℕ}
    (ht : Shape2 t B m) (hW : Shape2 c.f2outW nOut nFil) (hb : c.f2outB.length = nOut) :
    Shape3 (map3 (denseLayer c.f2outW c.f2outB c.activation) t) B m nOut := by
  refine ⟨by simp [map3, ht.1], ?_⟩
  intro mb hmb
  rcases List.mem_map.mp hmb with ⟨u, hu, rfl⟩
  refine ⟨by rw [List.length_map, ht.2 u hu], ?_⟩
  intro r hr
  rcases List.mem_map.mp hr with ⟨v, _, rfl⟩
  rw [denseLayer, List.length_zipWith, hW.1, hb, Nat.min_self]

theorem shape2_filterW (c : CFConv) {r_ij : T3} {fij : T4} {B A N nFeat nFil : ℕ} (cut : ℕ)
    (hr : Shape3 r_ij B A N) (hF : Shape4 fij B A N nFeat)
    (hfn : ∀ t a, Shape4 t B a N nFeat → Shape4 (c.filter_network t) B a N nFil)
    (hcn : ∀ g ∈ c.cutoff_network, ∀ t a, Shape3 t B a N → Shape3 (g t) B a N) :
    Shape2 (c.filterW r_ij fij cut) B (min cut A) := by
  have hW : Shape4 (c.filter_network (sliceAtoms cut fij)) B (min cut A) N nFil :=
    hfn _ _ (shape4_sliceAtoms cut hF)
  unfold CFConv.filterW
  cases hc : c.cutoff_network with
  | none => exact shape4_to_shape2 hW
  | some g =>
    have hg : g ∈ c.cutoff_network := by simp [hc, Option.mem_def]
    have hC : Shape3 (g (sliceAtoms cut r_ij)) B (min cut A) N :=
      hcn g hg _ _ (shape3_sliceAtoms cut hr)
    exact shape2_scaleByCutoff (shape4_to_shape2 hW) (shape3_to_shape2 hC)

theorem forwardCut_shape (c : CFConv) {x r_ij : T3} {neighbors : NT3} {pairwise_mask : T3}
    {fij : T4} {B A N nIn nFeat nFil nOut : ℕ} (cutv : ℕ)
    (hx : Shape3 x B A nIn) (hr : Shape3 r_ij B A N)
    (hF : Shape4 fij B A N nFeat)
    (hnbh : Shape3 neighbors B A N) (hmask : Shape3 pairwise_mask B A N)
    (hfn : ∀ t a, Shape4 t B a N nFeat → Shape4 (c.filter_network t) B a N nFil)
    (hcn : ∀ g ∈ c.cutoff_network, ∀ t a, Shape3 t B a N → Shape3 (g t) B a N)
    (hW2 : Shape2 c.f2outW nOut nFil) (hbb : c.f2outB.length = nOut) :
    Shape3 (c.forwardCut x r_ij neighbors pairwise_mask fij cutv) B (min cutv A) nOut := by
  have hproj := shape3_projectIn c (shape3_to_shape2 hx)
  have hg : Shape2 (c.gatherStage x neighbors cutv) B (min cutv A) := by
    unfold CFConv.gatherStage
    exact shape2_gatherNbh hproj.1 (shape2_sliceAtoms cutv (shape3_to_shape2 hnbh))
  have hWsh : Shape2 (c.filterW r_ij fij cutv) B (min cutv A) :=
    shape2_filterW c cutv hr hF hfn hcn
  have h1 := shape2_sliceAtoms cutv hg
  have h2 := shape2_sliceAtoms cutv hWsh
  rw [← Nat.min_assoc, Nat.min_self] at h1 h2
  have hy2 := shape2_mul4 h1 h2
  have hmask2 : Shape2 (sliceAtoms cutv pairwise_mask) B (min cutv A) :=
    shape2_sliceAtoms cutv (shape3_to_shape2 hmask)
  have hagg := @shape2_aggregate c.normalize_filter _ _ _ _ hy2 hmask2
  unfold CFConv.forwardCut
  exact shape3_outProj c hagg hW2 hbb

/-! ### Claim C1: output shape -/

/-- Claim C1: for every valid input (`AtomFeatures` of shape
(batch, n_atoms, n_in) together with consistent distance, neighbor and
mask tensors and well-shaped filter, cutoff and output networks),
`CFConv.forward` returns a tensor of shape (batch, cut, n_out), where
`cut` defaults to the full atom count `n_atoms` when the argument is
omitted (`none`). -/
theorem cfconv_forward_shape (c : CFConv) (x r_ij : T3) (neighbors : NT3)
    (pairwise_mask : T3) (f_ij : Option T4) (cutOpt : Option ℕ)
    (B A N nIn nFeat nFil nOut : ℕ)
    (hx : Shape3 x B A nIn) (hr : Shape3 r_ij B A N)
    (hF : Shape4 (f_ij.getD (unsqueezeLast r_ij)) B A N nFeat)
    (hnbh : Shape3 neighbors B A N) (hmask : Shape3 pairwise_mask B A N)
    (hfn : ∀ t a, Shape4 t B a N nFeat → Shape4 (c.filter_network t) B a N nFil)
    (hcn : ∀ g ∈ c.cutoff_network, ∀ t a, Shape3 t B a N → Shape3 (g t) B a N)
    (hW2 : Shape2 c.f2outW nOut nFil) (hbb : c.f2outB.length = nOut)
    (hcut : ∀ m ∈ cutOpt, m ≤ A) :
    Shape3 (c.forward x r_ij neighbors pairwise_mask f_ij cutOpt) B (cutOpt.getD A) nOut := by
  unfold CFConv.forward
  cases cutOpt with
  | some m =>
    have hm : m ≤ A := hcut m rfl
    have h := forwardCut_shape c m hx hr hF hnbh hmask hfn hcn hW2 hbb
    rw [Nat.min_eq_left hm] at h
    simpa using h
  | none =>
    cases x with
    | nil =>
      have hB : B = 0 := by simpa using hx.1.symm
      subst hB
      refine ⟨?_, ?_⟩
      · simp [CFConv.forwardCut, CFConv.gatherStage, CFConv.projectIn, map3,
          gatherNbh, sliceAtoms, mul4, aggregate]
      · intro mb hmb
        simp [CFConv.forwardCut, CFConv.gatherStage, CFConv.projectIn, map3,
          gatherNbh, sliceAtoms, mul4, aggregate] at hmb
    | cons xb xs =>
      have hA : xb.length = A := (hx.2 xb (List.mem_cons_self xb xs)).1
      have h := forwardCut_shape c xb.length hx hr hF hnbh hmask hfn hcn hW2 hbb
      have hmin : min xb.length A = A := by rw [hA, Nat.min_self]
      rw [hmin] at h
      simpa using h

/-- Example layer for witnesses: n_in = n_filters = n_out = 1, identity
activation, identity filter network, no cutoff, sum aggregation. -/
def cEx : CFConv := ⟨[[1]], [[1]], [0], id, fun t => t, none, false⟩

/-- Example atom features, shape (1, 2, 1). -/
def xEx : T3 := [[[2], [3]]]

/-- Example distances, shape (1, 2, 1). -/
def rEx : T3 := [[[5], [7]]]

/-- Example neighbor indices, shape (1, 2, 1). -/
def nbhEx : NT3 := [[[1], [0]]]

/-- Example pairwise mask, shape (1, 2, 1). -/
def maskEx : T3 := [[[1], [1]]]

theorem cfconv_forward_shape_witness :
    Shape3 (cEx.forward xEx rEx nbhEx maskEx none none) 1 2 1 :=
  cfconv_forward_shape cEx xEx rEx nbhEx maskEx none none 1 2 1 1 1 1 1
    (by decide) (by decide) (by decide) (by decide) (by decide)
    (fun t a h => h) (by simp [cEx]) (by decide) (by decide) (by simp)

/-! ### Claim C9: an oversized cut clamps -/

/-- Claim C9: when the `cut` argument exceeds the atom count `n_atoms`,
every `[:, :cut]` slice in `CFConv.forward` clamps to the available
extent (as Python slicing does), so the call succeeds and the result has
min(cut, n_atoms) = n_atoms rows along the atom axis rather than `cut`
rows. -/
theorem cfconv_oversized_cut_clamps (c : CFConv) (x r_ij : T3) (neighbors : NT3)
    (pairwise_mask : T3) (f_ij : Option T4) (m : ℕ)
    (B A N nIn nFeat nFil nOut : ℕ)
    (hx : Shape3 x B A nIn) (hr : Shape3 r_ij B A N)
    (hF : Shape4 (f_ij.getD (unsqueezeLast r_ij)) B A N nFeat)
    (hnbh : Shape3 neighbors B A N) (hmask : Shape3 pairwise_mask B A N)
    (hfn : ∀ t a, Shape4 t B a N nFeat → Shape4 (c.filter_network t) B a N nFil)
    (hcn : ∀ g ∈ c.cutoff_network, ∀ t a, Shape3 t B a N → Shape3 (g t) B a N)
    (hW2 : Shape2 c.f2outW nOut nFil) (hbb : c.f2outB.length = nOut)
    (hm : A ≤ m) :
    Shape3 (c.forward x r_ij neighbors pairwise_mask f_ij (some m)) B (min m A) nOut
      ∧ min m A = A := by
  refine ⟨?_, Nat.min_eq_right hm⟩
  unfold CFConv.forward
  simpa using forwardCut_shape c m hx hr hF hnbh hmask hfn hcn hW2 hbb

theorem cfconv_oversized_cut_clamps_witness :
    Shape3 (cEx.forward xEx rEx nbhEx maskEx none (some 5)) 1 (min 5 2) 1 ∧ min 5 2 = 2 :=
  cfconv_oversized_cut_clamps cEx xEx rEx nbhEx maskEx none 5 1 2 1 1 1 1 1
    (by decide) (by decide) (by decide) (by decide) (by decide)
    (fun t a h => h) (by simp [cEx]) (by decide) (by decide) (by decide)

/-! ### Aggregation lemmas (claims C3 and C4) -/

theorem aggregate_entry {mean : Bool} {inp : T4} {mask : T3} {b i : ℕ}
    (hb1 : b < inp.length) (hb2 : b < mask.length)
    (hi1 : i < (inp.getD b []).length) (hi2 : i < (mask.getD b []).length) :
    ((aggregate mean inp mask).getD b []).getD i []
      = aggRow mean ((inp.getD b []).getD i []) ((mask.getD b []).getD i []) := by
  unfold aggregate
  rw [getD_zipWith [] [] [] hb1 hb2]
  rw [getD_zipWith [] [] [] hi1 hi2]

theorem vadd_zero_entries {u v : Vec} (hu : ∀ q ∈ u, q = 0) (hv : ∀ q ∈ v, q = 0) :
    ∀ q ∈ vadd u v, q = 0 := by
  unfold vadd
  apply forall_mem_zipWith
  intro p hp q hq
  rw [hu p hp, hv q hq, add_zero]

theorem vsum_zero_entries {vs : List Vec} (h : ∀ v ∈ vs, ∀ q ∈ v, q = 0) :
    ∀ q ∈ vsum vs, q = 0 := by
  induction vs with
  | nil => simp [vsum]
  | cons v ws ih =>
    cases ws with
    | nil => simpa [vsum] using h v (List.mem_cons_self v [])
    | cons w ws2 =>
      intro q hq
      simp only [vsum] at hq
      exact vadd_zero_entries (h v (List.mem_cons_self v (w :: ws2)))
        (ih (fun u hu => h u (List.mem_cons_of_mem v hu))) q hq

theorem maskedSum_zero_entries {inp : List Vec} {mask : Vec}
    (h : ∀ q ∈ mask, q = 0) : ∀ q ∈ maskedSum inp mask, q = 0 := by
  unfold maskedSum
  apply vsum_zero_entries
  apply forall_mem_zipWith
  intro ms hms v _ q hq
  rcases List.mem_map.mp hq with ⟨p, _, rfl⟩
  rw [h ms hms, zero_mul]

theorem aggRow_mask_zero {mean : Bool} {inp : List Vec} {mask : Vec}
    (h : ∀ q ∈ mask, q = 0) : ∀ q ∈ aggRow mean inp mask, q = 0 := by
  have hms := @maskedSum_zero_entries inp mask h
  cases mean with
  | false =>
    intro q hq
    replace hq : q ∈ maskedSum inp mask := hq
    exact hms q hq
  | true =>
    intro q hq
    replace hq : q ∈ (maskedSum inp mask).map (fun p => p / max mask.sum 1) := hq
    rcases List.mem_map.mp hq with ⟨p, hp, rfl⟩
    rw [hms p hp, zero_div]

theorem sum_eq_count_one {mask : Vec} (h : ∀ q ∈ mask, q = 0 ∨ q = 1) :
    mask.sum = (mask.count 1 : ℚ) := by
  induction mask with
  | nil => simp
  | cons q qs ih =>
    have ih2 := ih (fun p hp => h p (List.mem_cons_of_mem q hp))
    rcases h q (List.mem_cons_self q qs) with h0 | h1
    · subst h0
      rw [List.sum_cons, ih2, List.count_cons]
      norm_num
    · subst h1
      rw [List.sum_cons, ih2, List.count_cons]
      norm_num
      ring

theorem aggRow_mean_div {inp : List Vec} {mask : Vec}
    (h01 : ∀ q ∈ mask, q = 0 ∨ q = 1) (hk : 0 < mask.count 1) :
    aggRow true inp mask = (aggRow false inp mask).map (fun q => q / (mask.count 1 : ℚ)) := by
  have hsum := sum_eq_count_one h01
  have h1 : (1 : ℚ) ≤ (mask.count 1 : ℚ) := by exact_mod_cast hk
  show (maskedSum inp mask).map (fun q => q / max mask.sum 1)
    = (maskedSum inp mask).map (fun q => q / (mask.count 1 : ℚ))
  rw [hsum, max_eq_left h1]

theorem aggRow_mean_no_neighbors {inp : List Vec} {mask : Vec}
    (h01 : ∀ q ∈ mask, q = 0 ∨ q = 1) (hk : mask.count 1 = 0) :
    ∀ q ∈ aggRow true inp mask, q = 0 := by
  apply aggRow_mask_zero
  intro q hq
  rcases h01 q hq with h0 | h1
  · exact h0
  · exact absurd (h1 ▸ hq) (List.count_eq_zero.mp hk)

/-- Claim C3: with normalize_filter = true (mean mode), for every atom
row whose mask has k entries equal to 1 with k positive, the aggregated
row equals the sum-mode (normalize_filter = false) aggregate divided
componentwise by k; and when k = 0 the mean-mode aggregate is the zero
vector (the floor max(sum, 1) in the divisor keeps the division defined;
in this exact-arithmetic model the result is exactly zero). -/
theorem cfconv_mean_mode_correct (inp : T4) (mask : T3) (b i : ℕ)
    (hb1 : b < inp.length) (hb2 : b < mask.length)
    (hi1 : i < (inp.getD b []).length) (hi2 : i < (mask.getD b []).length)
    (h01 : ∀ q ∈ (mask.getD b []).getD i [], q = 0 ∨ q = 1) :
    (0 < ((mask.getD b []).getD i []).count 1 →
      ((aggregate true inp mask).getD b []).getD i []
        = (((aggregate false inp mask).getD b []).getD i []).map
            (fun q => q / (((mask.getD b []).getD i []).count 1 : ℚ)))
    ∧ (((mask.getD b []).getD i []).count 1 = 0 →
        ∀ q ∈ ((aggregate true inp mask).getD b []).getD i [], q = 0) := by
  constructor
  · intro hk
    rw [aggregate_entry hb1 hb2 hi1 hi2, aggregate_entry hb1 hb2 hi1 hi2]
    exact aggRow_mean_div h01 hk
  · intro hk
    rw [aggregate_entry hb1 hb2 hi1 hi2]
    exact aggRow_mean_no_neighbors h01 hk

theorem cfconv_mean_mode_correct_witness :
    ((0 : ℕ) < ([(1 : ℚ), 1, 0].count 1) →
      ((aggregate true [[[[2], [4], [8]]]] [[[1, 1, 0]]]).getD 0 []).getD 0 []
        = (((aggregate false [[[[2], [4], [8]]]] [[[1, 1, 0]]]).getD 0 []).getD 0 []).map
            (fun q => q / (([(1 : ℚ), 1, 0].count 1 : ℕ) : ℚ)))
    ∧ (([(1 : ℚ), 1, 0].count 1 = 0) →
        ∀ q ∈ ((aggregate true [[[[2], [4], [8]]]] [[[1, 1, 0]]]).getD 0 []).getD 0 [], q = 0) := by
  have h := cfconv_mean_mode_correct [[[[2], [4], [8]]]] [[[1, 1, 0]]] 0 0
    (by decide) (by decide) (by decide) (by decide) (by decide)
  exact h

/-- Claim C4: for every atom whose mask row is entirely zero, the
aggregated value for that atom before the output projection is the zero
vector, in both sum mode and mean mode. -/
theorem cfconv_masking_law (mean : Bool) (inp : T4) (mask : T3) (b i : ℕ)
    (hb1 : b < inp.length) (hb2 : b < mask.length)
    (hi1 : i < (inp.getD b []).length) (hi2 : i < (mask.getD b []).length)
    (hzero : ∀ q ∈ (mask.getD b []).getD i [], q = 0) :
    ∀ q ∈ ((aggregate mean inp mask).getD b []).getD i [], q = 0 := by
  rw [aggregate_entry hb1 hb2 hi1 hi2]
  exact aggRow_mask_zero hzero

theorem cfconv_masking_law_witness :
    (((aggregate true [[[[2], [4]]]] [[[0, 0]]]).getD 0 []).getD 0 []).getD 0 0 = 0 :=
  cfconv_masking_law true [[[[2], [4]]]] [[[0, 0]]] 0 0
    (by decide) (by decide) (by decide) (by decide) (by decide)
    ((((aggregate true [[[[2], [4]]]] [[[0, 0]]]).getD 0 []).getD 0 []).getD 0 0)
    (by norm_num [aggregate, aggRow, maskedSum, vsum, vadd])

/-! ### Gather lemmas (claims C6 and C10) -/

theorem gatherStage_entry (c : CFConv) {x : T3} {neighbors : NT3} {cut b i k : ℕ}
    (hbx : b < x.length) (hbn : b < neighbors.length)
    (hi1 : i < cut) (hi2 : i < (neighbors.getD b []).length)
    (hk : k < ((neighbors.getD b []).getD i []).length)
    (hj : ((neighbors.getD b []).getD i []).getD k 0 < (x.getD b []).length) :
    (((c.gatherStage x neighbors cut).getD b []).getD i []).getD k []
      = linearNoBias c.in2fW
          ((x.getD b []).getD (((neighbors.getD b []).getD i []).getD k 0) []) := by
  unfold CFConv.gatherStage gatherNbh CFConv.projectIn map3 sliceAtoms
  have e1 : (neighbors.map (fun r => r.take cut)).getD b ([] : List (List ℕ))
      = (neighbors.getD b []).take cut := getD_map [] [] hbn
  have e2 : (x.map (fun mb => mb.map (linearNoBias c.in2fW))).getD b ([] : T2)
      = (x.getD b []).map (linearNoBias c.in2fW) := getD_map [] [] hbx
  rw [getD_zipWith ([] : List (List ℕ)) ([] : T2) []
      (by rw [List.length_map]; exact hbn) (by rw [List.length_map]; exact hbx)]
  rw [e1, e2]
  have e3 : ((neighbors.getD b []).take cut).getD i ([] : List ℕ)
      = (neighbors.getD b []).getD i [] := getD_take [] hi1 hi2
  rw [getD_map ([] : List ℕ) []
      (by rw [List.length_take]; exact lt_min hi1 hi2)]
  rw [e3]
  rw [getD_map 0 [] hk]
  rw [getD_map [] [] hj]

theorem shape4_gatherStage (c : CFConv) {x : T3} {neighbors : NT3} {B A N nIn : ℕ} (cut : ℕ)
    (hx : Shape3 x B A nIn) (hn : Shape3 neighbors B A N)
    (hvalid : ∀ nb ∈ neighbors, ∀ row ∈ nb, ∀ j ∈ row, j < A) :
    Shape4 (c.gatherStage x neighbors cut) B (min cut A) N c.in2fW.length := by
  have hproj := shape3_projectIn c (shape3_to_shape2 hx)
  unfold CFConv.gatherStage gatherNbh
  refine ⟨by rw [List.length_zipWith, length_sliceAtoms, hn.1, hproj.1, Nat.min_self], ?_⟩
  apply forall_mem_zipWith
  intro nb hnb yb hyb
  rcases List.mem_map.mp hnb with ⟨nb₀, hnb₀, rfl⟩
  refine ⟨by rw [List.length_map, List.length_take, (hn.2 nb₀ hnb₀).1], ?_⟩
  intro mm hmm
  rcases List.mem_map.mp hmm with ⟨row, hrow, rfl⟩
  have hrow₀ : row ∈ nb₀ := List.mem_of_mem_take hrow
  refine ⟨by rw [List.length_map, (hn.2 nb₀ hnb₀).2 row hrow₀], ?_⟩
  intro r hr
  rcases List.mem_map.mp hr with ⟨j, hjmem, rfl⟩
  have hjA : j < A := hvalid nb₀ hnb₀ row hrow₀ j hjmem
  have hyblen : yb.length = A := (hproj.2 yb hyb).1
  have hmem : yb.getD j [] ∈ yb := by
    rw [List.getD_eq_getElem yb [] (by rw [hyblen]; exact hjA)]
    exact List.getElem_mem _
  exact (hproj.2 yb hyb).2 _ hmem

/-- Claim C6: given in-range neighbor indices, the gathered tensor built
in forward (lines 65-72) has shape (batch, cut, n_neighbors, n_filters)
— with `cut` clamped to the atom count — and its entry [b, i, k, :]
equals projected_features[b, NeighborIndices[b, i, k], :], where
projected_features is the bias-free input projection of AtomFeatures. -/
theorem cfconv_gather_correct (c : CFConv) (x : T3) (neighbors : NT3)
    (cut B A N nIn : ℕ)
    (hx : Shape3 x B A nIn) (hn : Shape3 neighbors B A N)
    (hvalid : ∀ nb ∈ neighbors, ∀ row ∈ nb, ∀ j ∈ row, j < A) :
    Shape4 (c.gatherStage x neighbors cut) B (min cut A) N c.in2fW.length
    ∧ ∀ b i k, b < B → i < min cut A → k < N →
        (((c.gatherStage x neighbors cut).getD b []).getD i []).getD k []
          = linearNoBias c.in2fW
              ((x.getD b []).getD (((neighbors.getD b []).getD i []).getD k 0) []) := by
  refine ⟨shape4_gatherStage c cut hx hn hvalid, ?_⟩
  intro b i k hb hi hk
  have hbx : b < x.length := by rw [hx.1]; exact hb
  have hbn : b < neighbors.length := by rw [hn.1]; exact hb
  have hnb : neighbors.getD b [] ∈ neighbors := by
    rw [List.getD_eq_getElem neighbors [] hbn]
    exact List.getElem_mem _
  have hlen1 : (neighbors.getD b []).length = A := (hn.2 _ hnb).1
  have hi2 : i < (neighbors.getD b []).length := by rw [hlen1]; omega
  have hrowmem : (neighbors.getD b []).getD i [] ∈ neighbors.getD b [] := by
    rw [List.getD_eq_getElem _ [] hi2]
    exact List.getElem_mem _
  have hk2 : k < ((neighbors.getD b []).getD i []).length := by
    rw [(hn.2 _ hnb).2 _ hrowmem]; exact hk
  have hjmem : ((neighbors.getD b []).getD i []).getD k 0 ∈ (neighbors.getD b []).getD i [] := by
    rw [List.getD_eq_getElem _ 0 hk2]
    exact List.getElem_mem _
  have hjA : ((neighbors.getD b []).getD i []).getD k 0 < A :=
    hvalid _ hnb _ hrowmem _ hjmem
  have hxb : x.getD b [] ∈ x := by
    rw [List.getD_eq_getElem x [] hbx]
    exact List.getElem_mem _
  have hj : ((neighbors.getD b []).getD i []).getD k 0 < (x.getD b []).length := by
    rw [(hx.2 _ hxb).1]; exact hjA
  exact gatherStage_entry c hbx hbn (lt_of_lt_of_le hi (Nat.min_le_left _ _)) hi2 hk2 hj

theorem cfconv_gather_correct_witness :
    (Shape4 (cEx.gatherStage xEx nbhEx 2) 1 (min 2 2) 1 cEx.in2fW.length
    ∧ ∀ b i k, b < 1 → i < min 2 2 → k < 1 →
        (((cEx.gatherStage xEx nbhEx 2).getD b []).getD i []).getD k []
          = linearNoBias cEx.in2fW
              ((xEx.getD b []).getD (((nbhEx.getD b []).getD i []).getD k 0) [])) :=
  cfconv_gather_correct cEx xEx nbhEx 2 1 2 1 1 (by decide) (by decide) (by decide)

/-- Claim C10: the input projection `y = in2f(x)` is applied to all
n_atoms atoms before any truncation, so a neighbor index `j` inside the
first `cut` rows may reference an atom at position `j ≥ cut`; the
gathered entry is then the projected feature vector of that atom, so
atoms beyond the truncation prefix contribute to the output through the
gather. -/
theorem cfconv_projection_before_truncation (c : CFConv) (x : T3) (neighbors : NT3)
    (cut b i k j B A N nIn : ℕ)
    (hx : Shape3 x B A nIn) (hn : Shape3 neighbors B A N)
    (hb : b < B) (hi : i < min cut A) (hk : k < N)
    (hidx : ((neighbors.getD b []).getD i []).getD k 0 = j)
    (hcutj : cut ≤ j) (hjA : j < A) :
    (((c.gatherStage x neighbors cut).getD b []).getD i []).getD k []
      = linearNoBias c.in2fW ((x.getD b []).getD j []) := by
  have hbx : b < x.length := by rw [hx.1]; exact hb
  have hbn : b < neighbors.length := by rw [hn.1]; exact hb
  have hnb : neighbors.getD b [] ∈ neighbors := by
    rw [List.getD_eq_getElem neighbors [] hbn]
    exact List.getElem_mem _
  have hi2 : i < (neighbors.getD b []).length := by
    rw [(hn.2 _ hnb).1]; omega
  have hrowmem : (neighbors.getD b []).getD i [] ∈ neighbors.getD b [] := by
    rw [List.getD_eq_getElem _ [] hi2]
    exact List.getElem_mem _
  have hk2 : k < ((neighbors.getD b []).getD i []).length := by
    rw [(hn.2 _ hnb).2 _ hrowmem]; exact hk
  have hxb : x.getD b [] ∈ x := by
    rw [List.getD_eq_getElem x [] hbx]
    exact List.getElem_mem _
  have hj : ((neighbors.getD b []).getD i []).getD k 0 < (x.getD b []).length := by
    rw [(hx.2 _ hxb).1, hidx]; exact hjA
  rw [gatherStage_entry c hbx hbn (lt_of_lt_of_le hi (Nat.min_le_left _ _)) hi2 hk2 hj, hidx]

theorem cfconv_projection_before_truncation_witness :
    (((cEx.gatherStage xEx nbhEx 1).getD 0 []).getD 0 []).getD 0 []
      = linearNoBias cEx.in2fW ((xEx.getD 0 []).getD 1 []) :=
  cfconv_projection_before_truncation cEx xEx nbhEx 1 0 0 0 1 1 2 1 1
    (by decide) (by decide) (by decide) (by decide) (by decide) (by decide)
    (by decide) (by decide)

/-! ### Claim C7: determinism and purity -/

/-- Claim C7: `CFConv.forward` is deterministic and keeps no hidden
state: two invocations with identical layer weights, identical
collaborator networks and identical input tensors return identical
outputs.  The embedding of forward as a pure function of the layer
record and its arguments is justified by the source, whose forward pass
only reads `self` and its arguments and rebinds local variables. -/
theorem cfconv_forward_deterministic (c₁ c₂ : CFConv) (x₁ x₂ r₁ r₂ : T3)
    (n₁ n₂ : NT3) (m₁ m₂ : T3) (f₁ f₂ : Option T4) (cut₁ cut₂ : Option ℕ)
    (h1 : c₁.in2fW = c₂.in2fW) (h2 : c₁.f2outW = c₂.f2outW)
    (h3 : c₁.f2outB = c₂.f2outB) (h4 : c₁.activation = c₂.activation)
    (h5 : c₁.filter_network = c₂.filter_network)
    (h6 : c₁.cutoff_network = c₂.cutoff_network)
    (h7 : c₁.normalize_filter = c₂.normalize_filter)
    (hx : x₁ = x₂) (hr : r₁ = r₂) (hn : n₁ = n₂) (hm : m₁ = m₂)
    (hf : f₁ = f₂) (hcut : cut₁ = cut₂) :
    c₁.forward x₁ r₁ n₁ m₁ f₁ cut₁ = c₂.forward x₂ r₂ n₂ m₂ f₂ cut₂ := by
  have hc : c₁ = c₂ := by
    cases c₁
    cases c₂
    simp only [CFConv.mk.injEq]
    exact ⟨h1, h2, h3, h4, h5, h6, h7⟩
  subst hc hx hr hn hm hf hcut
  rfl

theorem cfconv_forward_deterministic_witness :
    cEx.forward xEx rEx nbhEx maskEx none none
      = cEx.forward xEx rEx nbhEx maskEx none none :=
  cfconv_forward_deterministic cEx cEx xEx xEx rEx rEx nbhEx nbhEx maskEx maskEx
    none none none none rfl rfl rfl rfl rfl rfl rfl rfl rfl rfl rfl rfl rfl

/-! ### Claim C5: a constant-one cutoff network is the identity -/

theorem shape4_to_shape3 {t : List (List (List (List α)))} {a b c d : ℕ}
    (h : Shape4 t a b c d) : Shape3 t a b c :=
  ⟨h.1, fun u hu => ⟨(h.2 u hu).1, fun m hm => ((h.2 u hu).2 m hm).1⟩⟩

theorem shape3_onesLike {s : T3} {b a n : ℕ} (h : Shape3 s b a n) :
    Shape3 (onesLike3 s) b a n := by
  refine ⟨by rw [onesLike3, List.length_map, h.1], ?_⟩
  intro mb hmb
  rcases List.mem_map.mp hmb with ⟨u, hu, rfl⟩
  refine ⟨by rw [List.length_map, (h.2 u hu).1], ?_⟩
  intro r hr
  rcases List.mem_map.mp hr with ⟨v, hv, rfl⟩
  rw [List.length_map, (h.2 u hu).2 v hv]

theorem onesLike3_entries {s : T3} :
    ∀ mb ∈ onesLike3 s, ∀ r ∈ mb, ∀ q ∈ r, q = 1 := by
  intro mb hmb r hr q hq
  rcases List.mem_map.mp hmb with ⟨u, _, rfl⟩
  rcases List.mem_map.mp hr with ⟨v, _, rfl⟩
  rcases List.mem_map.mp hq with ⟨w, _, rfl⟩
  rfl

theorem scaleByCutoff_onesLike {W : T4} {s : T3} {b a n : ℕ}
    (hW : Shape3 W b a n) (hs : Shape3 s b a n) :
    scaleByCutoff W (onesLike3 s) = W := by
  have hones := shape3_onesLike hs
  unfold scaleByCutoff
  apply zipWith_left_id
  · rw [hW.1, hones.1]
  · intro wb hwb cb hcb
    apply zipWith_left_id
    · rw [(hW.2 wb hwb).1, (hones.2 cb hcb).1]
    · intro wa hwa ca hca
      apply zipWith_left_id
      · rw [(hW.2 wb hwb).2 wa hwa, (hones.2 cb hcb).2 ca hca]
      · intro wrow _ cs hcs
        rw [onesLike3_entries cb hcb ca hca cs hcs]
        simp [mul_one]

/-- Claim C5: on every input, a CFConv whose cutoff network is the
constant function 1.0 produces output equal to that of an otherwise
identical CFConv constructed with cutoff_network = None, given the same
weights and the filter network's shape contract. -/
theorem cfconv_cutoff_identity (iW fW : T2) (fb : Vec) (act : ℚ → ℚ)
    (fn : T4 → T4) (cn : T3 → T3) (nf : Bool)
    (x r_ij : T3) (neighbors : NT3) (pairwise_mask : T3)
    (f_ij : Option T4) (cutOpt : Option ℕ) (B A N nFeat nFil : ℕ)
    (hones : ∀ t, cn t = onesLike3 t)
    (hr : Shape3 r_ij B A N)
    (hF : Shape4 (f_ij.getD (unsqueezeLast r_ij)) B A N nFeat)
    (hfn : ∀ t a, Shape4 t B a N nFeat → Shape4 (fn t) B a N nFil) :
    CFConv.forward ⟨iW, fW, fb, act, fn, some cn, nf⟩
        x r_ij neighbors pairwise_mask f_ij cutOpt
      = CFConv.forward ⟨iW, fW, fb, act, fn, none, nf⟩
        x r_ij neighbors pairwise_mask f_ij cutOpt := by
  unfold CFConv.forward CFConv.forwardCut CFConv.filterW CFConv.gatherStage
  simp only [hones]
  rw [scaleByCutoff_onesLike
    (shape4_to_shape3 (hfn _ _ (shape4_sliceAtoms _ hF)))
    (shape3_sliceAtoms _ hr)]
  rfl

theorem cfconv_cutoff_identity_witness :
    CFConv.forward ⟨[[1]], [[1]], [0], id, fun t => t, some (fun t => onesLike3 t), false⟩
        xEx rEx nbhEx maskEx none none
      = CFConv.forward ⟨[[1]], [[1]], [0], id, fun t => t, none, false⟩
        xEx rEx nbhEx maskEx none none :=
  cfconv_cutoff_identity [[1]] [[1]] [0] id (fun t => t) (fun t => onesLike3 t) false
    xEx rEx nbhEx maskEx none none 1 2 1 1 1
    (fun t => rfl) (by decide) (by decide) (fun t a h => h)

/-! ### Claim C2: truncation consistency -/

theorem zipWith_congr_fun {f g : α → β → γ} (h : ∀ a b, f a b = g a b)
    (l₁ : List α) (l₂ : List β) : List.zipWith f l₁ l₂ = List.zipWith g l₁ l₂ := by
  induction l₁ generalizing l₂ with
  | nil => simp
  | cons a as ih => cases l₂ <;> simp [h, ih]

theorem sliceAtoms_sliceAtoms (m k : ℕ) (t : List (List α)) :
    sliceAtoms m (sliceAtoms k t) = sliceAtoms (min m k) t := by
  unfold sliceAtoms
  rw [List.map_map]
  congr 1
  funext r
  simp [Function.comp, List.take_take]

theorem map3_sliceAtoms (f : Vec → Vec) (m : ℕ) (t : T3) :
    map3 f (sliceAtoms m t) = sliceAtoms m (map3 f t) := by
  unfold map3 sliceAtoms
  rw [List.map_map, List.map_map]
  congr 1
  funext r
  simp [Function.comp, List.map_take]

theorem zipWith_sliceAtoms {f : List α → List β → List γ} {m : ℕ}
    (hf : ∀ u v, f (u.take m) (v.take m) = (f u v).take m)
    (a : List (List α)) (b : List (List β)) :
    List.zipWith f (sliceAtoms m a) (sliceAtoms m b)
      = sliceAtoms m (List.zipWith f a b) := by
  unfold sliceAtoms
  rw [List.zipWith_map_left, List.zipWith_map_right, List.map_zipWith]
  exact zipWith_congr_fun (fun u v => hf u v) a b

theorem mul4_sliceAtoms (m : ℕ) (a b : T4) :
    mul4 (sliceAtoms m a) (sliceAtoms m b) = sliceAtoms m (mul4 a b) :=
  zipWith_sliceAtoms (fun _ _ => (List.take_zipWith).symm) a b

theorem scaleByCutoff_sliceAtoms (m : ℕ) (W : T4) (cmat : T3) :
    scaleByCutoff (sliceAtoms m W) (sliceAtoms m cmat)
      = sliceAtoms m (scaleByCutoff W cmat) :=
  zipWith_sliceAtoms (fun _ _ => (List.take_zipWith).symm) W cmat

theorem aggregate_sliceAtoms (mean : Bool) (m : ℕ) (inp : T4) (mask : T3) :
    aggregate mean (sliceAtoms m inp) (sliceAtoms m mask)
      = sliceAtoms m (aggregate mean inp mask) :=
  zipWith_sliceAtoms (fun _ _ => (List.take_zipWith).symm) inp mask

theorem gatherNbh_sliceAtoms (m : ℕ) (y : T3) (nbh : NT3) :
    gatherNbh y (sliceAtoms m nbh) = sliceAtoms m (gatherNbh y nbh) := by
  unfold gatherNbh sliceAtoms
  rw [List.zipWith_map_left, List.map_zipWith]
  apply zipWith_congr_fun
  intro nb yb
  rw [List.map_take]

theorem filterW_truncated (c : CFConv) {r_ij : T3} {fij : T4} {B A N nFeat : ℕ} (m : ℕ)
    (hr : Shape3 r_ij B A N) (hF : Shape4 fij B A N nFeat)
    (hfn : ∀ t k, c.filter_network (sliceAtoms k t) = sliceAtoms k (c.filter_network t))
    (hcn : ∀ g ∈ c.cutoff_network, ∀ t k, g (sliceAtoms k t) = sliceAtoms k (g t)) :
    c.filterW r_ij fij m = sliceAtoms m (c.filterW r_ij fij A) := by
  have hFid : sliceAtoms A fij = fij :=
    sliceAtoms_eq_self (fun r hrr => le_of_eq (hF.2 r hrr).1)
  have hrid : sliceAtoms A r_ij = r_ij :=
    sliceAtoms_eq_self (fun r hrr => le_of_eq (hr.2 r hrr).1)
  unfold CFConv.filterW
  cases hc : c.cutoff_network with
  | none =>
    rw [hFid, hfn fij m]
  | some g =>
    have hg : g ∈ c.cutoff_network := by simp [hc, Option.mem_def]
    show scaleByCutoff (c.filter_network (sliceAtoms m fij)) (g (sliceAtoms m r_ij))
      = sliceAtoms m
          (scaleByCutoff (c.filter_network (sliceAtoms A fij)) (g (sliceAtoms A r_ij)))
    rw [hFid, hrid, hfn fij m, hcn g hg r_ij m, scaleByCutoff_sliceAtoms]

theorem gatherStage_truncated (c : CFConv) (x : T3) {neighbors : NT3} {B A N : ℕ} (m : ℕ)
    (hn : Shape3 neighbors B A N) :
    c.gatherStage x neighbors m = sliceAtoms m (c.gatherStage x neighbors A) := by
  unfold CFConv.gatherStage
  rw [sliceAtoms_eq_self (fun r hrr => le_of_eq (hn.2 r hrr).1)]
  exact gatherNbh_sliceAtoms m _ neighbors

theorem forwardCut_truncated (c : CFConv) {x r_ij : T3} {neighbors : NT3}
    {pairwise_mask : T3} {fij : T4} {B A N nFeat : ℕ} (m : ℕ)
    (hr : Shape3 r_ij B A N) (hF : Shape4 fij B A N nFeat)
    (hn : Shape3 neighbors B A N) (hmask : Shape3 pairwise_mask B A N)
    (hfn : ∀ t k, c.filter_network (sliceAtoms k t) = sliceAtoms k (c.filter_network t))
    (hcn : ∀ g ∈ c.cutoff_network, ∀ t k, g (sliceAtoms k t) = sliceAtoms k (g t)) :
    c.forwardCut x r_ij neighbors pairwise_mask fij m
      = sliceAtoms m (c.forwardCut x r_ij neighbors pairwise_mask fij A) := by
  have e1 := gatherStage_truncated c x m hn
  have e2 := filterW_truncated c m hr hF hfn hcn
  have e3 := (gatherStage_truncated c x A hn).symm
  have e4 := (filterW_truncated c A hr hF hfn hcn).symm
  have e5 : sliceAtoms A pairwise_mask = pairwise_mask :=
    sliceAtoms_eq_self (fun r hrr => le_of_eq (hmask.2 r hrr).1)
  unfold CFConv.forwardCut
  rw [e1, e2, e3, e4, e5]
  simp only [sliceAtoms_sliceAtoms, Nat.min_self]
  rw [mul4_sliceAtoms, aggregate_sliceAtoms, map3_sliceAtoms]

/-- Claim C2: truncation consistency — for every m with m ≤ n_atoms,
running `CFConv.forward` with `cut = m` yields exactly the first m rows
(along the atom axis) of the output produced with `cut` unspecified
(full atom count), given identical weights and inputs, provided the
externally supplied filter and cutoff networks act per atom row (commute
with prefix truncation along the atom axis, as any per-pair network
does). -/
theorem cfconv_truncation_consistency (c : CFConv) (x r_ij : T3) (neighbors : NT3)
    (pairwise_mask : T3) (f_ij : Option T4) (m : ℕ) (B A N nIn nFeat : ℕ)
    (hx : Shape3 x B A nIn) (hA : (x.headD []).length = A)
    (hr : Shape3 r_ij B A N)
    (hF : Shape4 (f_ij.getD (unsqueezeLast r_ij)) B A N nFeat)
    (hn : Shape3 neighbors B A N) (hmask : Shape3 pairwise_mask B A N)
    (hm : m ≤ A)
    (hfn : ∀ t k, c.filter_network (sliceAtoms k t) = sliceAtoms k (c.filter_network t))
    (hcn : ∀ g ∈ c.cutoff_network, ∀ t k, g (sliceAtoms k t) = sliceAtoms k (g t)) :
    c.forward x r_ij neighbors pairwise_mask f_ij (some m)
      = sliceAtoms m (c.forward x r_ij neighbors pairwise_mask f_ij none) := by
  unfold CFConv.forward
  simp only [Option.getD_some, Option.getD_none]
  rw [hA]
  exact forwardCut_truncated c m hr hF hn hmask hfn hcn

theorem cfconv_truncation_consistency_witness :
    cEx.forward xEx rEx nbhEx maskEx none (some 1)
      = sliceAtoms 1 (cEx.forward xEx rEx nbhEx maskEx none none) :=
  cfconv_truncation_consistency cEx xEx rEx nbhEx maskEx none 1 1 2 1 1 1
    (by decide) (by decide) (by decide) (by decide) (by decide) (by decide)
    (by decide) (fun t k => rfl) (by simp [cEx])

end GNN
